import Mathlib

/-!
Shallow embedding of the grid-alignment, curve-normalization and
outlier-rejection core of `src/xas/analysis.py` and `src/xas/outliers.py`.

Numbers are modelled as exact rationals.  numpy float division by zero does
not raise; where a genuine `0/0` or `x/0` can occur (the modified chi-square
scorer with zero MAD) values are modelled with `NpFloat`, which has explicit
`nan` and signed-infinity points.  `np.std` appears in the source only inside
a square that cancels the square root (`((x - m)/s)**2 = (x - m)^2 / s^2`),
so trimmed variances are used directly; the lemma `sq_div_sqrt_eq` records
the real-number identity that justifies this.
-/

/-- Arithmetic mean of a list (`np.mean` on a 1-d array); the `[]` case gives
`0/0 = 0` in rational arithmetic. -/
def listMean (l : List ℚ) : ℚ := l.sum / l.length

/-- Population variance of a list: the square of `np.std` (ddof = 0). -/
def listVar (l : List ℚ) : ℚ := (l.map (fun x => (x - listMean l) ^ 2)).sum / l.length

/-- Median of a list (`np.median`): middle element of the sorted list, or the
average of the two middle elements when the length is even. -/
def listMedian (l : List ℚ) : ℚ :=
  let s := List.insertionSort (· ≤ ·) l
  let n := l.length
  if n = 0 then 0
  else if n % 2 = 1 then s.getD (n / 2) 0
  else (s.getD (n / 2 - 1) 0 + s.getD (n / 2) 0) / 2

/-- Column `j` of a row-major data matrix (out-of-range entries default to 0;
all uses are guarded by the matrix's rectangular shape). -/
def columnOf (data : List (List ℚ)) (j : ℕ) : List ℚ := data.map (fun r => r.getD j 0)

/-- One column of `scipy.stats.trimboth(a, frac, axis=0)`: sort the column and
slice from `lowercut = int(frac * n)` to `uppercut = n - lowercut`.  Note the
cut is `frac` of the values from EACH end. -/
def sortedSlice (frac : ℚ) (col : List ℚ) : List ℚ :=
  let n := col.length
  let lo := (⌊frac * (n : ℚ)⌋).toNat
  ((List.insertionSort (· ≤ ·) col).drop lo).take (n - 2 * lo)

/-- The columns of `scipy.stats.trimboth(data, frac, axis=0)`: each column of
the matrix is sorted and sliced independently (`axis=0` partitions each column
on its own). -/
def trimboth_cols (frac : ℚ) (data : List (List ℚ)) : List (List ℚ) :=
  (List.range (data.headD []).length).map (fun j => sortedSlice frac (columnOf data j))

/-- `scipy.stats.trimboth(data, frac, axis=0)` in row-major layout, as passed
to an estimator by `fit_trimmed`.  scipy keeps, per column, exactly the order
statistics `lowercut..uppercut-1` (via `np.partition`, which leaves the kept
block in unspecified order); this model lays each column's kept block out
sorted — the same multiset per column, and every use is either per-column
statistics (order-invariant) or the universally quantified estimator
oracle. -/
def trimboth (frac : ℚ) (data : List (List ℚ)) : List (List ℚ) :=
  let cols := trimboth_cols frac data
  (List.range (cols.headD []).length).map (fun i => cols.map (fun c => c.getD i 0))

/-- `check_for_outliers` from `src/xas/analysis.py`: per-column trimmed mean
and trimmed standard deviation via `stats.trimboth(all_data, trim_fraction,
axis=0)`, a per-row deviation score `np.sum(((row - m)/s)**2)/n_pts`, and the
mask `score > threshold`.  The standardized square is written as
`(x - m)^2 / variance`; `sq_div_sqrt_eq` justifies the translation. -/
def check_for_outliers (data : List (List ℚ)) (frac θ : ℚ) : List ℚ × List Bool :=
  let nPts := (data.headD []).length
  let tmean := (trimboth_cols frac data).map listMean
  let tvar := (trimboth_cols frac data).map listVar
  let dev := data.map (fun row =>
    ((List.range nPts).map
      (fun j => (row.getD j 0 - tmean.getD j 0) ^ 2 / tvar.getD j 0)).sum / (nPts : ℚ))
  (dev, dev.map (fun s => decide (s > θ)))

/-- Follows the words of the specification for claim C1: per column, discard
the top `trim_fraction/2` and the bottom `trim_fraction/2` of the values and
compute the trimmed statistics from the remainder; otherwise identical to
`check_for_outliers`. -/
def check_for_outliers_claimed (data : List (List ℚ)) (frac θ : ℚ) : List ℚ × List Bool :=
  check_for_outliers data (frac / 2) θ

/-- Per-row deviation score of claim C1 (with the per-end trim amount the code
actually uses), written directly with per-column trimmed statistics. -/
def trimmedScoreSpec (frac : ℚ) (data : List (List ℚ)) (i : ℕ) : ℚ :=
  ((List.range (data.headD []).length).map (fun j =>
      ((data.getD i []).getD j 0 - listMean (sortedSlice frac (columnOf data j))) ^ 2
        / listVar (sortedSlice frac (columnOf data j)))).sum / ((data.headD []).length : ℚ)

/-- One point of `np.interp(x, xp, fp)` on the zipped node list `xp.zip fp`:
clamp below the first node and above the last, exact linear interpolation in
between.  This matches numpy for non-empty, strictly increasing `xp` (the only
regime in which numpy documents its behaviour; `np.interp` with an empty `xp`
raises, which no theorem below relies on). -/
def interpPt : List (ℚ × ℚ) → ℚ → ℚ
  | [], _ => 0
  | [(_, f0)], _ => f0
  | (x0, f0) :: (x1, f1) :: rest, x =>
    if x ≤ x0 then f0
    else if x ≤ x1 then f0 + (f1 - f0) * (x - x0) / (x1 - x0)
    else interpPt ((x1, f1) :: rest) x

/-- `np.interp(x, xp, fp)` applied to a whole vector of sample points. -/
def np_interp (x xp fp : List ℚ) : List ℚ := x.map (fun xi => interpPt (xp.zip fp) xi)

/-- A scan, as the `pd.DataFrame` the source passes around: named columns in
order, each a rational value sequence. -/
abbrev Scan : Type := List (String × List ℚ)

/-- Column lookup, `df[key]`: the first column with the given name. -/
def lookupCol (df : Scan) (key : String) : List ℚ :=
  ((df.find? (fun c => c.1 == key)).getD (key, [])).2

/-- `standardize_energy_grid` from `src/xas/analysis.py`: the first scan is the
master and passes through unchanged; every other scan is rebuilt with the
master's energy column first, followed by its remaining columns (in order,
energy skipped) interpolated onto the master grid with `np.interp`. -/
def standardize_energy_grid (dfs : List Scan) (ekey : String) : List Scan :=
  match dfs with
  | [] => []
  | d0 :: rest =>
    let em := lookupCol d0 ekey
    d0 :: rest.map (fun df =>
      ((ekey, em) :: (df.filter (fun c => c.1 != ekey)).map
        (fun c => (c.1, np_interp em (lookupCol df ekey) c.2)) : Scan))

/-- Least-squares fit of `c0 + c1 * v` to `y` over all positions:
`np.linalg.lstsq(basis, y)` for `basis = [ones, v]^T`.  The regular branch
solves the normal equations; the rank-deficient branch (`v` constant, or too
short) returns the minimum-norm least-squares solution, as numpy's SVD-based
`lstsq` does. -/
def lstsq2 (v y : List ℚ) : ℚ × ℚ :=
  let n : ℚ := v.length
  let sv := v.sum
  let svv := (v.map (fun t => t ^ 2)).sum
  let sy := y.sum
  let svy := ((v.zip y).map (fun p => p.1 * p.2)).sum
  let det := n * svv - sv * sv
  if det = 0 then
    if v.length = 0 then (0, 0)
    else
      let k := v.headD 0
      let m := sy / n
      (m / (1 + k ^ 2), m * k / (1 + k ^ 2))
  else
    ((svv * sy - sv * svy) / det, (n * svy - sv * sy) / det)

/-- `prenormalize_data` from `src/xas/analysis.py`: row 0 passes through; every
other row `r_i` is replaced by `basis @ c = c0 + c1 * r_i` where
`c = np.linalg.lstsq([ones, r_i]^T, row0)`. -/
def prenormalize_data (data : List (List ℚ)) : List (List ℚ) :=
  match data with
  | [] => []
  | r0 :: rest =>
    r0 :: rest.map (fun ri =>
      let c := lstsq2 ri r0
      ri.map (fun t => c.1 + c.2 * t))

/-- A numpy double restricted to the values reachable here: an exact rational,
a signed infinity, or nan. -/
inductive NpFloat : Type where
  | val (q : ℚ)
  | posinf
  | neginf
  | nan
deriving DecidableEq

/-- numpy float division of two rationals: division by zero yields `nan`
(for `0/0`) or a signed infinity, never an exception. -/
def npdivQ (x y : ℚ) : NpFloat :=
  if y = 0 then (if x = 0 then .nan else if x > 0 then .posinf else .neginf)
  else .val (x / y)

/-- Squaring in numpy float arithmetic. -/
def npsq : NpFloat → NpFloat
  | .val q => .val (q ^ 2)
  | .nan => .nan
  | _ => .posinf

/-- IEEE addition on the modelled values: `nan` propagates and opposite
infinities give `nan`. -/
def npadd : NpFloat → NpFloat → NpFloat
  | .nan, _ => .nan
  | _, .nan => .nan
  | .posinf, .neginf => .nan
  | .neginf, .posinf => .nan
  | .posinf, _ => .posinf
  | _, .posinf => .posinf
  | .neginf, _ => .neginf
  | _, .neginf => .neginf
  | .val a, .val b => .val (a + b)

/-- `np.sum` over a vector, starting from 0 as numpy does. -/
def npsum (l : List NpFloat) : NpFloat := l.foldl npadd (.val 0)

/-- Multiplication by a rational scalar; `0 * inf = nan` as in IEEE. -/
def npscale (c : ℚ) : NpFloat → NpFloat
  | .val q => .val (c * q)
  | .nan => .nan
  | .posinf => if c > 0 then .posinf else if c < 0 then .neginf else .nan
  | .neginf => if c > 0 then .neginf else if c < 0 then .posinf else .nan

/-- The numpy comparison `x > t`: false whenever `x` is `nan`. -/
def npgt (x : NpFloat) (t : ℚ) : Bool :=
  match x with
  | .val q => decide (q > t)
  | .posinf => true
  | .neginf => false
  | .nan => false

/-- Per-column medians `np.median(data, axis=0)`. -/
def colMedians (data : List (List ℚ)) : List ℚ :=
  (List.range (data.headD []).length).map (fun j => listMedian (columnOf data j))

/-- The centred matrix `data - np.median(data, axis=0)`. -/
def devsFromMedian (data : List (List ℚ)) : List (List ℚ) :=
  data.map (fun row =>
    (List.range (data.headD []).length).map
      (fun j => row.getD j 0 - (colMedians data).getD j 0))

/-- The scaled MAD of `calc_mod_chisq` in `src/xas/outliers.py`:
`np.median(np.abs(data - np.median(data, axis=0)).ravel()) / 0.67449`. -/
def madScaled (data : List (List ℚ)) : ℚ :=
  listMedian (((devsFromMedian data).map (fun r => r.map (fun d => |d|))).flatten)
    / (67449 / 100000)

/-- `calc_mod_chisq` from `src/xas/outliers.py`: robust z-scores
`ksi = (data - column_median) / mad` and per-row score
`1/n_pts * np.sum(ksi**2, axis=1)`.  The division is numpy float division, so
a zero MAD silently produces `nan`/`inf` scores instead of raising. -/
def calc_mod_chisq (data : List (List ℚ)) : List NpFloat :=
  let nPts := (data.headD []).length
  (devsFromMedian data).map (fun r =>
    npscale (1 / (nPts : ℚ)) (npsum ((r.map (fun d => npdivQ d (madScaled data))).map npsq)))

/-- Follows the words of the specification for claim C6: identical to
`madScaled` except that the scale constant is `1/0.6745`. -/
def madScaled_claimed (data : List (List ℚ)) : ℚ :=
  listMedian (((devsFromMedian data).map (fun r => r.map (fun d => |d|))).flatten)
    / (6745 / 10000)

/-- Follows the words of the specification for claim C6: `calc_mod_chisq` with
the MAD scaled by `1/0.6745` instead of the source's `1/0.67449`. -/
def calc_mod_chisq_claimed (data : List (List ℚ)) : List NpFloat :=
  let nPts := (data.headD []).length
  (devsFromMedian data).map (fun r =>
    npscale (1 / (nPts : ℚ))
      (npsum ((r.map (fun d => npdivQ d (madScaled_claimed data))).map npsq)))

/-- The per-row modified chi-square score of claim C6 written directly as the
mean over columns of the squared robust z-scores, in exact arithmetic. -/
def modChisqScore (data : List (List ℚ)) (row : List ℚ) : ℚ :=
  ((List.range (data.headD []).length).map
      (fun j => ((row.getD j 0 - (colMedians data).getD j 0) / madScaled data) ^ 2)).sum
    / ((data.headD []).length : ℚ)

/-- `modified_chisq_rejection` from `src/xas/outliers.py`: label `-1` where the
score exceeds the threshold, `+1` otherwise. -/
def modified_chisq_rejection (data : List (List ℚ)) (θ : ℚ) : List ℤ :=
  (calc_mod_chisq data).map (fun s => if npgt s θ then (-1 : ℤ) else 1)

/-- Boolean-mask row selection `data[labels > 0]`. -/
def selectRows (data : List (List ℚ)) (labels : List ℤ) : List (List ℚ) :=
  ((data.zip labels).filter (fun p => decide (0 < p.2))).map (fun p => p.1)

/-- A `LocalOutlierFactor(novelty=True)` estimator, abstracted to its
capability: given the data it was fit on and the data to predict, return one
integer label per predicted row. -/
def LofOracle : Type := List (List ℚ) → List (List ℚ) → List ℤ

/-- `MCS_into_LOF` from `src/xas/outliers.py`: chi-square rejection first;
if fewer than 2 rows survive, return all-ones labels, otherwise fit the
density model on the survivors and predict on the full matrix. -/
def MCS_into_LOF (oracle : LofOracle) (data : List (List ℚ)) (θ : ℚ) : List ℤ :=
  let r := modified_chisq_rejection data θ
  let reduced := selectRows data r
  if reduced.length < 2 then List.replicate data.length (1 : ℤ)
  else oracle reduced data

/-- `fit_trimmed` from `src/xas/outliers.py` prepares
`stats.trimboth(data, trim_fraction / 2)` as the estimator's training set. -/
def fit_trimmed_data (frac : ℚ) (data : List (List ℚ)) : List (List ℚ) :=
  trimboth (frac / 2) data

/-- `uids[labels > 0]` (for `pos = true`) and `uids[labels < 0]`
(for `pos = false`), as lists of uid strings. -/
def selectBy (uids : List String) (labels : List ℤ) (pos : Bool) : List String :=
  ((uids.zip labels).filter
      (fun p => if pos then decide (0 < p.2) else decide (p.2 < 0))).map (fun p => p.1)

/-- Column-wise mean `np.mean(rows, axis=0)` of a matrix whose rows have
`nPts` points. -/
def colMean (nPts : ℕ) (rows : List (List ℚ)) : List ℚ :=
  (List.range nPts).map (fun j => listMean (columnOf rows j))

/-- One method's entry in the result dictionaries of `outlier_rejection`:
the inlier-averaged curve and the uid partition. -/
structure MethodOut : Type where
  avg : List ℚ
  inliers : List String
  outliers : List String
deriving DecidableEq

/-- The per-channel results of `outlier_rejection` for its three methods. -/
structure ChannelOut : Type where
  trimmed_lof : MethodOut
  mod_chisq : MethodOut
  combined : MethodOut
deriving DecidableEq

/-- A Python exception surfaced by the embedding at a call site whose
arguments do not match the callee's signature. -/
inductive PyError : Type where
  | typeError
deriving DecidableEq

/-- The keyword parameters `standardize_energy_grid` in `src/xas/analysis.py`
(line 116, signature `standardize_energy_grid(dfs, energy_key="energy")`)
accepts beyond the positional scan list. -/
def standardize_energy_grid_keywords : List String := ["energy_key"]

/-- Python call semantics for `standardize_energy_grid`: a keyword argument
the callee does not accept raises `TypeError` before the body runs; otherwise
the body of `src/xas/analysis.py:116-125` executes. -/
def callStandardize (kwargs : List String) (dfs : List Scan) (ekey : String) :
    Except PyError (List Scan) :=
  if kwargs.all (fun k => decide (k ∈ standardize_energy_grid_keywords)) then
    .ok (standardize_energy_grid dfs ekey)
  else .error .typeError

/-- The number of parameters of `prenormalize_data` in `src/xas/analysis.py`
(line 128, signature `prenormalize_data(data)`). -/
def prenormalize_data_arity : ℕ := 1

/-- Python call semantics for `prenormalize_data`: passing more positional
arguments than the callee accepts raises `TypeError`; otherwise the body of
`src/xas/analysis.py:128-136` executes. -/
def callPrenormalize (nargs : ℕ) (data : List (List ℚ)) :
    Except PyError (List (List ℚ)) :=
  if nargs = prenormalize_data_arity then .ok (prenormalize_data data)
  else .error .typeError

/-- The per-channel loop body of `outlier_rejection` (`src/xas/outliers.py`
lines 175-206): build the channel matrix from the aligned group, call
`prenormalize_data(data, energy)` — two positional arguments against the
one-parameter `prenormalize_data` of `src/xas/analysis.py:128`, so the call
raises `TypeError` — then run the three classifiers on the normalized matrix
and average the ORIGINAL rows each label vector keeps. -/
def runChannel (oracle : LofOracle) (uids : List String) (sgA : List Scan)
    (ch : String) : Except PyError ChannelOut := do
  let data := sgA.map (fun s => lookupCol s ch)
  let dataPre ← callPrenormalize 2 data
  let nPts := (data.headD []).length
  let lofR := oracle (fit_trimmed_data (2 / 5) data) dataPre
  let mcsR := modified_chisq_rejection dataPre 30
  let combR := MCS_into_LOF oracle dataPre 30
  return {
      trimmed_lof :=
        { avg := colMean nPts (selectRows data lofR)
          inliers := selectBy uids lofR true
          outliers := selectBy uids lofR false }
      mod_chisq :=
        { avg := colMean nPts (selectRows data mcsR)
          inliers := selectBy uids mcsR true
          outliers := selectBy uids mcsR false }
      combined :=
        { avg := colMean nPts (selectRows data combR)
          inliers := selectBy uids combR true
          outliers := selectBy uids combR false } }

/-- `outlier_rejection` from `src/xas/outliers.py` as the source executes: its
first step (lines 160-162) calls `standardize_energy_grid(scangroup,
master_idx=master_idx, energy_key=energy_key)`, but the
`standardize_energy_grid` imported from `src/xas/analysis.py` (line 116)
accepts no `master_idx` keyword, so every invocation raises `TypeError` here —
before the per-channel loop (whose own `prenormalize_data(data, energy)` call
would fail the same way) can produce any labels, uid partitions or averaged
curves.  The energy entry of `average_mus` and the diagnostic plotting are
presentation data and are not modelled. -/
def outlier_rejection (oracle : LofOracle) (scangroup : List Scan)
    (uids : List String) (channels : List String) (ekey : String) :
    Except PyError (List (String × ChannelOut)) := do
  let sgA ← callStandardize ["master_idx", "energy_key"] scangroup ekey
  let outs ← channels.mapM (fun ch => do
    let out ← runChannel oracle uids sgA ch
    return (ch, out))
  return outs

/-- Real-number identity justifying the use of variances in place of standard
deviations inside the squared standardized residuals: squaring cancels the
square root (also at 0, where both sides vanish). -/
lemma sq_div_sqrt_eq (x v : ℝ) (hv : 0 ≤ v) : (x / Real.sqrt v) ^ 2 = x ^ 2 / v := by
  rcases eq_or_lt_of_le hv with h | h
  · simp [← h]
  · rw [div_pow, Real.sq_sqrt (le_of_lt h)]

/-- `getD` through `map`, at an in-range index. -/
lemma getD_map_lt {α β : Type} (f : α → β) :
    ∀ (l : List α) (i : ℕ), i < l.length → ∀ (d : β) (d' : α),
      (l.map f).getD i d = f (l.getD i d')
  | _ :: _, 0, _, _, _ => rfl
  | _ :: l, i + 1, h, d, d' =>
    getD_map_lt f l i (Nat.lt_of_succ_lt_succ h) d d'

/-- `getD` on a mapped range, at an in-range index. -/
lemma getD_range_map {β : Type} (f : ℕ → β) (n i : ℕ) (h : i < n) (d : β) :
    ((List.range n).map f).getD i d = f i := by
  rw [getD_map_lt f _ i (by simpa using h) d 0]
  congr 1
  rw [List.getD_eq_getElem _ 0 (by simpa using h)]
  simp

/-- A list all of whose elements are `q` has median `q`. -/
lemma listMedian_allEq (l : List ℚ) (q : ℚ) (h : ∀ x ∈ l, x = q) (hne : l ≠ []) :
    listMedian l = q := by
  have hlen : 0 < l.length := List.length_pos.mpr hne
  have hs : ∀ x ∈ List.insertionSort (· ≤ ·) l, x = q := by
    intro x hx
    exact h x ((List.perm_insertionSort (· ≤ ·) l).mem_iff.mp hx)
  have hslen : (List.insertionSort (· ≤ ·) l).length = l.length :=
    (List.perm_insertionSort (· ≤ ·) l).length_eq
  have hget : ∀ i, i < l.length → (List.insertionSort (· ≤ ·) l).getD i 0 = q := by
    intro i hi
    have hi' : i < (List.insertionSort (· ≤ ·) l).length := by rw [hslen]; exact hi
    rw [List.getD_eq_getElem _ 0 hi']
    exact hs _ (List.getElem_mem hi')
  unfold listMedian
  have h2 : l.length / 2 < l.length := Nat.div_lt_self hlen (by norm_num)
  rcases Nat.eq_zero_or_pos (l.length % 2) with hodd | heven
  · rw [if_neg (by omega : ¬ l.length = 0), if_neg (by omega : ¬ l.length % 2 = 1)]
    rw [hget _ (by omega), hget _ h2]
    ring
  · have h1 : l.length % 2 = 1 := by omega
    rw [if_neg (by omega : ¬ l.length = 0), if_pos h1]
    exact hget _ h2

/-- Sum of an affine image of a list. -/
lemma sum_map_affine (l : List ℚ) (a b : ℚ) :
    (l.map (fun x => a + b * x)).sum = a * l.length + b * l.sum := by
  induction l with
  | nil => simp
  | cons h t ih =>
    simp only [List.map_cons, List.sum_cons, ih, List.length_cons]
    push_cast
    ring

/-- Sum of squares of an affine image of a list. -/
lemma sum_map_affine_sq (l : List ℚ) (a b : ℚ) :
    (l.map (fun x => (a + b * x) ^ 2)).sum
      = a ^ 2 * l.length + 2 * a * b * l.sum + b ^ 2 * (l.map (fun x => x ^ 2)).sum := by
  induction l with
  | nil => simp
  | cons h t ih =>
    simp only [List.map_cons, List.sum_cons, ih, List.length_cons]
    push_cast
    ring

/-- Sum of products of an affine image with the original list. -/
lemma sum_map_affine_mul (l : List ℚ) (a b : ℚ) :
    (l.map (fun x => (a + b * x) * x)).sum = a * l.sum + b * (l.map (fun x => x ^ 2)).sum := by
  induction l with
  | nil => simp
  | cons h t ih =>
    simp only [List.map_cons, List.sum_cons, ih]
    ring

/-- A sum of squared deviations is nonnegative. -/
lemma sum_sq_nonneg (l : List ℚ) (c : ℚ) : 0 ≤ (l.map (fun x => (x - c) ^ 2)).sum := by
  induction l with
  | nil => simp
  | cons h t ih =>
    simp only [List.map_cons, List.sum_cons]
    have := sq_nonneg (h - c)
    linarith

/-- A vanishing sum of squared deviations forces every element to the centre. -/
lemma sum_sq_eq_zero (l : List ℚ) (c : ℚ)
    (h : (l.map (fun x => (x - c) ^ 2)).sum = 0) : ∀ x ∈ l, x = c := by
  induction l with
  | nil => simp
  | cons a t ih =>
    simp only [List.map_cons, List.sum_cons] at h
    have h1 : 0 ≤ (a - c) ^ 2 := sq_nonneg _
    have h2 : 0 ≤ (t.map (fun x => (x - c) ^ 2)).sum := sum_sq_nonneg t c
    have ha : (a - c) ^ 2 = 0 := by linarith
    intro x hx
    rcases List.mem_cons.mp hx with rfl | hx'
    · have := pow_eq_zero_iff (n := 2) (by norm_num) |>.mp ha
      linarith [sub_eq_zero.mp this]
    · exact ih (by linarith) x hx'

/-- Adding to `nan` gives `nan`. -/
lemma npadd_nan (x : NpFloat) : npadd .nan x = .nan := by cases x <;> rfl

/-- Folding `npadd` from `nan` stays `nan`. -/
lemma foldl_npadd_nan (l : List NpFloat) : l.foldl npadd .nan = .nan := by
  induction l with
  | nil => rfl
  | cons h t ih => rw [List.foldl_cons, npadd_nan]; exact ih

/-- Folding `npadd` over genuine rational values is rational summation. -/
lemma foldl_npadd_val (f : ℚ → NpFloat) (g : ℚ → ℚ) (hf : ∀ x, f x = .val (g x)) :
    ∀ (l : List ℚ) (q : ℚ), (l.map f).foldl npadd (.val q) = .val (q + (l.map g).sum)
  | [], q => by simp
  | x :: t, q => by
    rw [List.map_cons, List.foldl_cons, hf x]
    show (t.map f).foldl npadd (npadd (.val q) (.val (g x))) = _
    have : npadd (.val q) (.val (g x)) = .val (q + g x) := rfl
    rw [this, foldl_npadd_val f g hf t (q + g x)]
    simp only [List.map_cons, List.sum_cons]
    ring_nf

/-- `np.sum` over genuine rational values is rational summation. -/
lemma npsum_map_val (f : ℚ → NpFloat) (g : ℚ → ℚ) (hf : ∀ x, f x = .val (g x))
    (l : List ℚ) : npsum (l.map f) = .val ((l.map g).sum) := by
  unfold npsum
  rw [foldl_npadd_val f g hf l 0]
  ring_nf

/-- `np.sum` of a non-empty block of `nan` is `nan`. -/
lemma npsum_replicate_nan (k : ℕ) (hk : 0 < k) :
    npsum (List.replicate k NpFloat.nan) = .nan := by
  obtain ⟨j, rfl⟩ : ∃ j, k = j + 1 := ⟨k - 1, by omega⟩
  rw [List.replicate_succ]
  unfold npsum
  rw [List.foldl_cons]
  show (List.replicate j NpFloat.nan).foldl npadd .nan = .nan
  exact foldl_npadd_nan _

/-- `np.interp` returns one value per sample point. -/
lemma np_interp_length (x xp fp : List ℚ) : (np_interp x xp fp).length = x.length := by
  simp [np_interp]

/-- Grid alignment preserves the number of scans. -/
lemma standardize_length (dfs : List Scan) (ekey : String) :
    (standardize_energy_grid dfs ekey).length = dfs.length := by
  cases dfs <;> simp [standardize_energy_grid]

/-- Prenormalization preserves the number of rows. -/
lemma prenormalize_length (data : List (List ℚ)) :
    (prenormalize_data data).length = data.length := by
  cases data <;> simp [prenormalize_data]

/-- The chi-square scorer returns one score per row. -/
lemma calc_mod_chisq_length (data : List (List ℚ)) :
    (calc_mod_chisq data).length = data.length := by
  simp [calc_mod_chisq, devsFromMedian]

/-- The chi-square rejection returns one label per row. -/
lemma modified_chisq_rejection_length (data : List (List ℚ)) (θ : ℚ) :
    (modified_chisq_rejection data θ).length = data.length := by
  simp [modified_chisq_rejection, calc_mod_chisq_length]

/-- `MCS_into_LOF` returns one label per row whenever the density model does. -/
lemma MCS_into_LOF_length (oracle : LofOracle) (data : List (List ℚ)) (θ : ℚ)
    (h : ∀ A B, (oracle A B).length = B.length) :
    (MCS_into_LOF oracle data θ).length = data.length := by
  by_cases hc : (selectRows data (modified_chisq_rejection data θ)).length < 2
  · simp [MCS_into_LOF, hc]
  · simp [MCS_into_LOF, hc, h]

/-- Selected uids come from the input uid list. -/
lemma selectBy_mem (uids : List String) (L : List ℤ) (b : Bool) (u : String)
    (h : u ∈ selectBy uids L b) : u ∈ uids := by
  simp only [selectBy, List.mem_map] at h
  obtain ⟨p, hp, rfl⟩ := h
  exact (List.of_mem_zip (List.mem_of_mem_filter hp)).1

/-- Unfolding `selectBy` on the positive side. -/
lemma selectBy_cons_true (u' : String) (us : List String) (l : ℤ) (ls : List ℤ) :
    selectBy (u' :: us) (l :: ls) true =
      if 0 < l then u' :: selectBy us ls true else selectBy us ls true := by
  by_cases h : (0 : ℤ) < l <;> simp [selectBy, List.filter_cons, h]

/-- Unfolding `selectBy` on the negative side. -/
lemma selectBy_cons_false (u' : String) (us : List String) (l : ℤ) (ls : List ℤ) :
    selectBy (u' :: us) (l :: ls) false =
      if l < 0 then u' :: selectBy us ls false else selectBy us ls false := by
  by_cases h : l < (0 : ℤ) <;> simp [selectBy, List.filter_cons, h]

/-- With duplicate-free uids, no uid is selected on both sides. -/
lemma selectBy_disjoint :
    ∀ (uids : List String) (L : List ℤ), uids.Nodup →
      ∀ u, u ∈ selectBy uids L true → u ∉ selectBy uids L false
  | [], _, _, u => by simp [selectBy]
  | _ :: _, [], _, u => by simp [selectBy]
  | u' :: us, l :: ls, hnd, u => by
    have hmem : u' ∉ us := (List.nodup_cons.mp hnd).1
    have hnd' : us.Nodup := (List.nodup_cons.mp hnd).2
    intro ht hf
    rw [selectBy_cons_true] at ht
    rw [selectBy_cons_false] at hf
    rcases lt_trichotomy l 0 with h | h | h
    · rw [if_neg (by omega : ¬ (0 : ℤ) < l)] at ht
      rw [if_pos h] at hf
      rcases List.mem_cons.mp hf with rfl | hf'
      · exact hmem (selectBy_mem us ls true u ht)
      · exact selectBy_disjoint us ls hnd' u ht hf'
    · rw [if_neg (by omega : ¬ (0 : ℤ) < l)] at ht
      rw [if_neg (by omega : ¬ l < (0 : ℤ))] at hf
      exact selectBy_disjoint us ls hnd' u ht hf
    · rw [if_pos h] at ht
      rw [if_neg (by omega : ¬ l < (0 : ℤ))] at hf
      rcases List.mem_cons.mp ht with rfl | ht'
      · exact hmem (selectBy_mem us ls false u hf)
      · exact selectBy_disjoint us ls hnd' u ht' hf

/-- With one nonzero label per uid, every uid is selected on some side. -/
lemma selectBy_cover :
    ∀ (uids : List String) (L : List ℤ), L.length = uids.length →
      (∀ l ∈ L, l ≠ 0) → ∀ u ∈ uids,
        u ∈ selectBy uids L true ∨ u ∈ selectBy uids L false
  | [], _, _, _ => by simp
  | _ :: _, [], h, _ => by simp at h
  | u' :: us, l :: ls, hlen, hnz => by
    intro u hu
    have hl : l ≠ 0 := hnz l (List.mem_cons_self l ls)
    have ih := selectBy_cover us ls (by simpa using hlen)
      (fun x hx => hnz x (List.mem_cons_of_mem _ hx))
    rw [selectBy_cons_true, selectBy_cons_false]
    rcases List.mem_cons.mp hu with rfl | hu'
    · rcases lt_trichotomy l 0 with h | h | h
      · right; rw [if_pos h]; exact List.mem_cons_self _ _
      · exact absurd h hl
      · left; rw [if_pos h]; exact List.mem_cons_self _ _
    · rcases ih u hu' with h | h
      · left
        split
        · exact List.mem_cons_of_mem _ h
        · exact h
      · right
        split
        · exact List.mem_cons_of_mem _ h
        · exact h

/-- Reading a list back off `getD` over its index range. -/
lemma range_map_getD (l : List ℚ) (d : ℚ) :
    (List.range l.length).map (fun j => l.getD j d) = l := by
  apply List.ext_getElem (by simp)
  intro i h1 h2
  simp only [List.getElem_map, List.getElem_range]
  exact List.getD_eq_getElem l d h2

/-- Once the sample point has passed a node, `interpPt` never looks at that
node again: for `x` at or beyond the second node the head can be dropped. -/
lemma interpPt_skip_head (x0 f0 x1 f1 : ℚ) (rest : List (ℚ × ℚ)) (x : ℚ)
    (h01 : x0 < x1) (hx : x1 ≤ x) :
    interpPt ((x0, f0) :: (x1, f1) :: rest) x = interpPt ((x1, f1) :: rest) x := by
  rw [interpPt]
  rw [if_neg (by linarith : ¬ x ≤ x0)]
  by_cases hx1 : x ≤ x1
  · have hxx : x = x1 := le_antisymm hx1 hx
    rw [if_pos hx1]
    have hne : x1 - x0 ≠ 0 := sub_ne_zero.mpr (ne_of_gt h01)
    subst hxx
    cases rest with
    | nil =>
      rw [interpPt]
      rw [mul_div_assoc, div_self hne, mul_one]
      ring
    | cons p t =>
      rw [interpPt, if_pos le_rfl]
      rw [mul_div_assoc, div_self hne, mul_one]
      ring
  · rw [if_neg hx1]

/-- Interpolating a value sequence onto its own strictly increasing grid
reproduces it exactly (the `np.interp` node-hit identity). -/
lemma np_interp_self :
    ∀ (xp fp : List ℚ), List.Chain' (· < ·) xp → xp.length = fp.length →
      np_interp xp xp fp = fp
  | [], fp, _, hlen => by
    cases fp with
    | nil => rfl
    | cons f t => simp at hlen
  | [e0], fp, _, hlen => by
    cases fp with
    | nil => simp at hlen
    | cons f t =>
      cases t with
      | nil => rfl
      | cons f1 t1 => simp at hlen
  | e0 :: e1 :: tl, fp, hch, hlen => by
    cases fp with
    | nil => simp at hlen
    | cons f0 ft =>
      cases ft with
      | nil => simp at hlen
      | cons f1 ftl =>
        have h01 : e0 < e1 := (List.chain'_cons.mp hch).1
        have hch' : List.Chain' (· < ·) (e1 :: tl) := (List.chain'_cons.mp hch).2
        have hlen' : (e1 :: tl).length = (f1 :: ftl).length := by simpa using hlen
        have hsorted : ∀ y ∈ e1 :: tl, e1 ≤ y := by
          intro y hy
          rcases List.mem_cons.mp hy with rfl | hy'
          · exact le_rfl
          · have hp : List.Pairwise (· < ·) (e1 :: tl) :=
              List.chain'_iff_pairwise.mp hch'
            exact le_of_lt ((List.pairwise_cons.mp hp).1 y hy')
        have hskip : ∀ y ∈ e1 :: tl,
            interpPt ((e0, f0) :: (e1, f1) :: tl.zip ftl) y
              = interpPt ((e1, f1) :: tl.zip ftl) y := by
          intro y hy
          exact interpPt_skip_head e0 f0 e1 f1 (tl.zip ftl) y h01 (hsorted y hy)
        show interpPt ((e0, f0) :: (e1, f1) :: tl.zip ftl) e0
              :: (e1 :: tl).map (fun xi => interpPt ((e0, f0) :: (e1, f1) :: tl.zip ftl) xi)
            = f0 :: f1 :: ftl
        have hhead : interpPt ((e0, f0) :: (e1, f1) :: tl.zip ftl) e0 = f0 := by
          rw [interpPt, if_pos le_rfl]
        rw [hhead, List.map_congr_left hskip]
        have htail := np_interp_self (e1 :: tl) (f1 :: ftl) hch' hlen'
        simpa [np_interp] using htail

/-- C2: the claim asserts that a zero MAD raises a distinct
DegenerateDistributionError-style error.  The code has no such check: on the
all-identical matrix `[[1],[1]]` the MAD is zero, `calc_mod_chisq` performs
the numpy division by zero and returns `nan` scores instead of raising. -/
theorem C2_zero_mad_returns_nan :
    calc_mod_chisq [[(1 : ℚ)], [1]] = [NpFloat.nan, NpFloat.nan] := by
  norm_num [calc_mod_chisq, devsFromMedian, colMedians, columnOf, madScaled,
    listMedian, List.insertionSort, List.orderedInsert, npdivQ, npsq, npsum, npadd,
    npscale, List.range, List.range.loop]

/-- C5: the claim asserts that a non-strictly-increasing or too-short
coordinate sequence makes alignment fail with an `InvalidGridError`.  The code
performs no grid validation: with a second scan whose grid has a single point
(fewer than 2), `standardize_energy_grid` returns an interpolated (clamped)
result instead of raising. -/
theorem C5_no_grid_validation :
    standardize_energy_grid
        [[("energy", [(0 : ℚ), 1]), ("mut", [10, 20])],
         [("energy", [(5 : ℚ)]), ("mut", [7])]] "energy"
      = [[("energy", [(0 : ℚ), 1]), ("mut", [10, 20])],
         [("energy", [(0 : ℚ), 1]), ("mut", [7, 7])]] := by decide

/-- C3: if the chi-square pass leaves fewer than 2 surviving rows,
`MCS_into_LOF` returns the all-inlier label vector `np.ones(n)` for every
original row, without consulting the density model (and hence without any
possibility of raising). -/
theorem C3_mcs_lof_fallback (oracle : LofOracle) (data : List (List ℚ)) (θ : ℚ)
    (h : (selectRows data (modified_chisq_rejection data θ)).length < 2) :
    MCS_into_LOF oracle data θ = List.replicate data.length 1 := by
  simp only [MCS_into_LOF]
  rw [if_pos h]

/-- C3 witness: a single-row matrix always leaves fewer than 2 survivors, and
the fallback labels every row `+1`. -/
theorem C3_mcs_lof_fallback_witness :
    MCS_into_LOF (fun _ _ => ([] : List ℤ)) [[(5 : ℚ)]] 30 = List.replicate 1 1 :=
  C3_mcs_lof_fallback (fun _ _ => ([] : List ℤ)) [[(5 : ℚ)]] 30 (by
    norm_num [selectRows, modified_chisq_rejection, calc_mod_chisq, devsFromMedian,
      colMedians, columnOf, madScaled, listMedian, List.insertionSort,
      List.orderedInsert, npdivQ, npsq, npsum, npadd, npscale, npgt,
      List.range, List.range.loop])

/-- C1 counterexample: the claim's trim convention (`trim_fraction/2` off each
end) disagrees with the code, which hands `trim_fraction` to
`scipy.stats.trimboth` and therefore cuts `trim_fraction` off EACH end.  On a
5-row matrix with the default `trim_fraction = 0.2` the two conventions keep
different rows and produce different scores and masks. -/
theorem C1_trim_convention_counterexample :
    check_for_outliers [[0], [1], [2], [3], [100]] (1 / 5) 25
      ≠ check_for_outliers_claimed [[0], [1], [2], [3], [100]] (1 / 5) 25 := by
  norm_num [check_for_outliers, check_for_outliers_claimed, trimboth_cols, sortedSlice,
    columnOf, listMean, listVar, List.insertionSort, List.orderedInsert,
    List.range, List.range.loop]

/-- C6 counterexample: the claim scales the MAD by `1/0.6745`, the code by
`1/0.67449`; on `[[0],[1],[2]]` the resulting scores differ. -/
theorem C6_constant_counterexample :
    calc_mod_chisq [[(0 : ℚ)], [1], [2]]
      ≠ calc_mod_chisq_claimed [[(0 : ℚ)], [1], [2]] := by
  norm_num [calc_mod_chisq, calc_mod_chisq_claimed, devsFromMedian, colMedians, columnOf,
    madScaled, madScaled_claimed, listMedian, List.insertionSort, List.orderedInsert,
    npdivQ, npsq, npsum, npadd, npscale, List.range, List.range.loop]

/-- C9 counterexample: with every row identical the claim expects score 0 for
every row, but the zero MAD makes the code compute `0/0 = nan` scores. -/
theorem C9_identical_rows_counterexample :
    calc_mod_chisq [[(1 : ℚ)], [1]] ≠ [NpFloat.val 0, NpFloat.val 0] := by
  norm_num [calc_mod_chisq, devsFromMedian, colMedians, columnOf, madScaled,
    listMedian, List.insertionSort, List.orderedInsert, npdivQ, npsq, npsum, npadd,
    npscale, List.range, List.range.loop]
  decide

/-- C1 (amended): per column the code discards the top `trim_fraction` and the
bottom `trim_fraction` of the values — the scipy `trimboth` per-end convention,
`int(frac*n)` values off each end, not `trim_fraction/2` — then takes the
trimmed mean and standard deviation of the remainder; every row's score is the
mean over columns of the squared standardized deviation, and the mask flags a
row exactly when its score exceeds the threshold.  `hvar` (nonzero trimmed
variances) is the regime where the rational model agrees with numpy, cf.
`sq_div_sqrt_eq`. -/
theorem C1_trimmed_outlier_scores (data : List (List ℚ)) (frac θ : ℚ) (i : ℕ)
    (hi : i < data.length)
    (hvar : ∀ j < (data.headD []).length,
      listVar (sortedSlice frac (columnOf data j)) ≠ 0) :
    (check_for_outliers data frac θ).1.getD i 0 = trimmedScoreSpec frac data i
    ∧ (check_for_outliers data frac θ).2.getD i false
        = decide (trimmedScoreSpec frac data i > θ) := by
  have hdev : (check_for_outliers data frac θ).1.getD i 0
      = trimmedScoreSpec frac data i := by
    simp only [check_for_outliers]
    rw [getD_map_lt _ data i hi 0 []]
    unfold trimmedScoreSpec
    congr 1
    congr 1
    apply List.map_congr_left
    intro j hj
    have hjlt : j < (data.headD []).length := List.mem_range.mp hj
    rw [trimboth_cols, List.map_map, List.map_map,
      getD_range_map _ _ j hjlt 0, getD_range_map _ _ j hjlt 0]
    rfl
  refine ⟨hdev, ?_⟩
  have hlen1 : i < (check_for_outliers data frac θ).1.length := by
    simp only [check_for_outliers]
    simpa using hi
  have h2 : (check_for_outliers data frac θ).2
      = (check_for_outliers data frac θ).1.map (fun s => decide (s > θ)) := rfl
  rw [h2, getD_map_lt _ _ i hlen1 false 0, hdev]

/-- C1 witness: the 5-row, 1-column matrix with default trim fraction and
threshold, evaluated at its last row. -/
theorem C1_trimmed_outlier_scores_witness :
    (check_for_outliers [[0], [1], [2], [3], [100]] (1 / 5) 25).1.getD 4 0
        = trimmedScoreSpec (1 / 5) [[0], [1], [2], [3], [100]] 4
    ∧ (check_for_outliers [[0], [1], [2], [3], [100]] (1 / 5) 25).2.getD 4 false
        = decide (trimmedScoreSpec (1 / 5) [[0], [1], [2], [3], [100]] 4 > 25) :=
  C1_trimmed_outlier_scores [[0], [1], [2], [3], [100]] (1 / 5) 25 4 (by norm_num)
    (by
      intro j hj
      simp only [List.headD_cons, List.length_cons, List.length_nil] at hj
      interval_cases j
      norm_num [listVar, listMean, sortedSlice, columnOf,
        List.insertionSort, List.orderedInsert])

/-- C6 (amended): with nonzero MAD the code computes per-column medians, the
MAD of all centred entries across the whole matrix scaled by `1/0.67449` (the
claim's `1/0.6745` misstates the source constant), scores every row by the
mean over columns of the squared robust z-scores, and labels a row `-1`
exactly when its score exceeds the threshold and `+1` otherwise. -/
theorem C6_mod_chisq_scores (data : List (List ℚ)) (θ : ℚ)
    (hmad : madScaled data ≠ 0) :
    calc_mod_chisq data = data.map (fun row => NpFloat.val (modChisqScore data row))
    ∧ modified_chisq_rejection data θ
        = data.map (fun row => if modChisqScore data row > θ then (-1 : ℤ) else 1) := by
  have hpoint : ∀ r : List ℚ,
      npscale (1 / (((data.headD []).length : ℕ) : ℚ))
          (npsum ((r.map (fun d => npdivQ d (madScaled data))).map npsq))
        = NpFloat.val ((r.map (fun d => (d / madScaled data) ^ 2)).sum
            / (((data.headD []).length : ℕ) : ℚ)) := by
    intro r
    have h1 : (r.map (fun d => npdivQ d (madScaled data))).map npsq
        = r.map (fun d => NpFloat.val ((d / madScaled data) ^ 2)) := by
      rw [List.map_map]
      apply List.map_congr_left
      intro d _
      simp only [Function.comp]
      rw [npdivQ, if_neg hmad]
      rfl
    rw [h1, npsum_map_val (fun d => NpFloat.val ((d / madScaled data) ^ 2))
        (fun d => (d / madScaled data) ^ 2) (fun d => rfl) r]
    simp only [npscale]
    rw [one_div, inv_mul_eq_div]
  have hscore : calc_mod_chisq data
      = data.map (fun row => NpFloat.val (modChisqScore data row)) := by
    unfold calc_mod_chisq devsFromMedian
    rw [List.map_map]
    apply List.map_congr_left
    intro row _
    simp only [Function.comp]
    rw [hpoint]
    unfold modChisqScore
    congr 2
    rw [List.map_map]
    rfl
  refine ⟨hscore, ?_⟩
  unfold modified_chisq_rejection
  rw [hscore, List.map_map]
  apply List.map_congr_left
  intro row _
  simp only [Function.comp]
  by_cases h : modChisqScore data row > θ <;> simp [npgt, h]

/-- C6 witness: the three-row matrix `[[0],[1],[2]]` at the default
threshold. -/
theorem C6_mod_chisq_scores_witness :
    calc_mod_chisq [[(0 : ℚ)], [1], [2]]
        = [[(0 : ℚ)], [1], [2]].map
            (fun row => NpFloat.val (modChisqScore [[(0 : ℚ)], [1], [2]] row))
    ∧ modified_chisq_rejection [[(0 : ℚ)], [1], [2]] 30
        = [[(0 : ℚ)], [1], [2]].map
            (fun row =>
              if modChisqScore [[(0 : ℚ)], [1], [2]] row > 30 then (-1 : ℤ) else 1) :=
  C6_mod_chisq_scores [[(0 : ℚ)], [1], [2]] 30
    (by
      norm_num [madScaled, devsFromMedian, colMedians, columnOf, listMedian,
        List.insertionSort, List.orderedInsert, List.range, List.range.loop])

/-- C9 (amended): when every row of the matrix is identical the MAD is zero,
so every row's score is `nan` (numpy `0/0`), not 0; and since `nan > θ` is
false in numpy, no row is flagged — every label is `+1`. -/
theorem C9_identical_rows (n : ℕ) (r : List ℚ) (θ : ℚ) (hn : 0 < n) (hr : r ≠ []) :
    calc_mod_chisq (List.replicate n r) = List.replicate n NpFloat.nan
    ∧ modified_chisq_rejection (List.replicate n r) θ = List.replicate n 1 := by
  obtain ⟨m, rfl⟩ : ∃ m, n = m + 1 := ⟨n - 1, by omega⟩
  have hlen_pos : 0 < r.length := List.length_pos.mpr hr
  have hhead : (List.replicate (m + 1) r).headD [] = r := by
    rw [List.replicate_succ]; rfl
  have hcols : ∀ j, columnOf (List.replicate (m + 1) r) j
      = List.replicate (m + 1) (r.getD j 0) := by
    intro j
    rw [columnOf, List.map_replicate]
  have hmed : colMedians (List.replicate (m + 1) r) = r := by
    unfold colMedians
    rw [hhead]
    have hpt : ∀ j ∈ List.range r.length,
        listMedian (columnOf (List.replicate (m + 1) r) j) = r.getD j 0 := by
      intro j _
      rw [hcols j]
      refine listMedian_allEq _ _ (fun x hx => List.eq_of_mem_replicate hx) ?_
      intro h
      have := congrArg List.length h
      simp at this
    rw [List.map_congr_left hpt, range_map_getD]
  have hdevs : devsFromMedian (List.replicate (m + 1) r)
      = List.replicate (m + 1) (List.replicate r.length (0 : ℚ)) := by
    unfold devsFromMedian
    simp only [hhead, hmed, List.map_replicate]
    congr 1
    have hpt : ∀ j ∈ List.range r.length, r.getD j 0 - r.getD j 0 = (0 : ℚ) :=
      fun j _ => sub_self _
    rw [List.map_congr_left hpt, List.map_const']
    simp
  have hmad : madScaled (List.replicate (m + 1) r) = 0 := by
    unfold madScaled
    simp only [hdevs, List.map_replicate, abs_zero]
    have hflat0 : ∀ x ∈ (List.replicate (m + 1)
        (List.replicate r.length (0 : ℚ))).flatten, x = 0 := by
      intro x hx
      rw [List.mem_flatten] at hx
      obtain ⟨L, hL, hxL⟩ := hx
      have hLe := List.eq_of_mem_replicate hL
      subst hLe
      exact List.eq_of_mem_replicate hxL
    have hflat_ne : (List.replicate (m + 1)
        (List.replicate r.length (0 : ℚ))).flatten ≠ [] := by
      apply List.ne_nil_of_mem (a := (0 : ℚ))
      rw [List.mem_flatten]
      exact ⟨List.replicate r.length (0 : ℚ),
        List.mem_replicate.mpr ⟨by omega, rfl⟩,
        List.mem_replicate.mpr ⟨by omega, rfl⟩⟩
    rw [listMedian_allEq _ 0 hflat0 hflat_ne]
    simp
  have hcalc : calc_mod_chisq (List.replicate (m + 1) r)
      = List.replicate (m + 1) NpFloat.nan := by
    unfold calc_mod_chisq
    simp only [hdevs, hmad, hhead, List.map_replicate]
    congr 1
    have h00 : npdivQ 0 0 = NpFloat.nan := by rw [npdivQ]; simp
    simp only [List.map_replicate, h00]
    have hsq : npsq NpFloat.nan = NpFloat.nan := rfl
    simp only [hsq]
    rw [npsum_replicate_nan r.length hlen_pos]
    rfl
  refine ⟨hcalc, ?_⟩
  unfold modified_chisq_rejection
  rw [hcalc, List.map_replicate]
  rfl

/-- C9 witness: two identical single-point rows. -/
theorem C9_identical_rows_witness :
    calc_mod_chisq (List.replicate 2 [(1 : ℚ)]) = List.replicate 2 NpFloat.nan
    ∧ modified_chisq_rejection (List.replicate 2 [(1 : ℚ)]) 30
        = List.replicate 2 1 :=
  C9_identical_rows 2 [(1 : ℚ)] 30 (by norm_num) (by simp)

/-- Looking up the energy key on a scan whose first column is the energy
column returns that column. -/
lemma lookupCol_cons_self (em : List ℚ) (L : Scan) (ekey : String) :
    lookupCol ((ekey, em) :: L) ekey = em := by
  unfold lookupCol
  rw [List.find?_cons_of_pos _ (by simp)]
  rfl

/-- C4: for a non-empty scan group whose master grid is valid (strictly
increasing, non-empty — the data-model invariant on scans), every scan of the
aligned group carries exactly the master's coordinate sequence, and aligning
the already-aligned group again returns it unchanged. -/
theorem C4_standardize_grid (dfs : List Scan) (ekey : String) (hne : dfs ≠ [])
    (hchain : List.Chain' (· < ·) (lookupCol (dfs.headD []) ekey))
    (hgrid : lookupCol (dfs.headD []) ekey ≠ []) :
    (∀ df ∈ standardize_energy_grid dfs ekey,
        lookupCol df ekey = lookupCol (dfs.headD []) ekey)
    ∧ standardize_energy_grid (standardize_energy_grid dfs ekey) ekey
        = standardize_energy_grid dfs ekey := by
  obtain ⟨d0, rest, rfl⟩ : ∃ d0 rest, dfs = d0 :: rest := by
    cases dfs with
    | nil => exact absurd rfl hne
    | cons a l => exact ⟨a, l, rfl⟩
  simp only [List.headD_cons] at hchain hgrid ⊢
  constructor
  · intro df hdf
    simp only [standardize_energy_grid] at hdf
    rcases List.mem_cons.mp hdf with rfl | hdf'
    · rfl
    · obtain ⟨x, _, rfl⟩ := List.mem_map.mp hdf'
      exact lookupCol_cons_self (lookupCol d0 ekey) _ ekey
  · simp only [standardize_energy_grid]
    congr 1
    rw [List.map_map]
    apply List.map_congr_left
    intro df _
    simp only [Function.comp]
    rw [lookupCol_cons_self (lookupCol d0 ekey)
      ((df.filter (fun c => c.1 != ekey)).map
        (fun c => (c.1, np_interp (lookupCol d0 ekey) (lookupCol df ekey) c.2))) ekey]
    have hfilter : ((ekey, lookupCol d0 ekey) :: (df.filter (fun c => c.1 != ekey)).map
          (fun c => (c.1, np_interp (lookupCol d0 ekey) (lookupCol df ekey) c.2))).filter
            (fun c => c.1 != ekey)
        = (df.filter (fun c => c.1 != ekey)).map
            (fun c => (c.1, np_interp (lookupCol d0 ekey) (lookupCol df ekey) c.2)) := by
      rw [List.filter_cons, if_neg (by simp)]
      apply List.filter_eq_self.mpr
      intro c hc
      obtain ⟨c0, hc0, rfl⟩ := List.mem_map.mp hc
      exact (List.mem_filter.mp hc0).2
    rw [hfilter, List.map_map]
    congr 1
    apply List.map_congr_left
    intro c _
    simp only [Function.comp]
    congr 1
    exact np_interp_self (lookupCol d0 ekey) _ hchain
      (np_interp_length (lookupCol d0 ekey) (lookupCol df ekey) c.2).symm

/-- C4 witness: a two-scan group whose master grid `[0, 1]` is strictly
increasing; re-alignment of the aligned group is the identity. -/
theorem C4_standardize_grid_witness :
    standardize_energy_grid
        (standardize_energy_grid
          [[("energy", [(0 : ℚ), 1]), ("mut", [1, 2])],
           [("energy", [(0 : ℚ), 2]), ("mut", [3, 5])]] "energy") "energy"
      = standardize_energy_grid
          [[("energy", [(0 : ℚ), 1]), ("mut", [1, 2])],
           [("energy", [(0 : ℚ), 2]), ("mut", [3, 5])]] "energy" :=
  (C4_standardize_grid
    [[("energy", [(0 : ℚ), 1]), ("mut", [1, 2])],
     [("energy", [(0 : ℚ), 2]), ("mut", [3, 5])]] "energy"
    (by simp) (by norm_num [lookupCol, List.find?]) (by simp [lookupCol, List.find?])).2

/-- Sum of pairwise products of an affine image zipped with the original. -/
lemma sum_zip_affine (l : List ℚ) (a b : ℚ) :
    (((l.map (fun x => a + b * x)).zip l).map (fun p => p.1 * p.2)).sum
      = a * l.sum + b * (l.map (fun x => x ^ 2)).sum := by
  induction l with
  | nil => simp
  | cons h t ih =>
    simp only [List.map_cons, List.zip_cons_cons, List.sum_cons, ih]
    ring

/-- Fitting `c0 + c1 * v` to `y` by least squares when `v` is an exact affine
image `v = a + b * y` with `b ≠ 0` reproduces `y` exactly — in the regular
branch because `(−a/b, 1/b)` is the unique solution of the normal equations,
and in the rank-deficient branch (`y`, hence `v`, constant) because the
minimum-norm solution still reproduces the constant. -/
lemma lstsq2_affine (r0 : List ℚ) (a b : ℚ) (hb : b ≠ 0) :
    (r0.map (fun x => a + b * x)).map
        (fun t => (lstsq2 (r0.map (fun x => a + b * x)) r0).1
          + (lstsq2 (r0.map (fun x => a + b * x)) r0).2 * t) = r0 := by
  have hsv : (r0.map (fun x => a + b * x)).sum = a * r0.length + b * r0.sum :=
    sum_map_affine r0 a b
  have hsvv : ((r0.map (fun x => a + b * x)).map (fun t => t ^ 2)).sum
      = a ^ 2 * r0.length + 2 * a * b * r0.sum
        + b ^ 2 * (r0.map (fun x => x ^ 2)).sum := by
    rw [List.map_map]
    exact sum_map_affine_sq r0 a b
  have hsvy : (((r0.map (fun x => a + b * x)).zip r0).map (fun p => p.1 * p.2)).sum
      = a * r0.sum + b * (r0.map (fun x => x ^ 2)).sum := sum_zip_affine r0 a b
  have hdetval : (r0.length : ℚ)
        * (a ^ 2 * r0.length + 2 * a * b * r0.sum + b ^ 2 * (r0.map (fun x => x ^ 2)).sum)
        - (a * r0.length + b * r0.sum) * (a * r0.length + b * r0.sum)
      = b ^ 2 * ((r0.length : ℚ) * (r0.map (fun x => x ^ 2)).sum - r0.sum * r0.sum) := by
    ring
  simp only [lstsq2, List.length_map]
  rw [hsv, hsvv, hsvy, hdetval]
  by_cases hD : (r0.length : ℚ) * (r0.map (fun x => x ^ 2)).sum - r0.sum * r0.sum = 0
  · rw [if_pos (by rw [hD]; ring)]
    by_cases hr0 : r0.length = 0
    · rw [if_pos hr0]
      rw [List.length_eq_zero.mp hr0]
      rfl
    · rw [if_neg hr0]
      have hn : (r0.length : ℚ) ≠ 0 := Nat.cast_ne_zero.mpr hr0
      have hvar0 : (r0.map (fun x => (x - r0.sum / r0.length) ^ 2)).sum = 0 := by
        have hfun : (fun x : ℚ => (x - r0.sum / r0.length) ^ 2)
            = (fun x => (-(r0.sum / r0.length) + 1 * x) ^ 2) := funext fun x => by ring
        rw [hfun, sum_map_affine_sq]
        have hval : (-(r0.sum / (r0.length : ℚ))) ^ 2 * r0.length
              + 2 * (-(r0.sum / (r0.length : ℚ))) * 1 * r0.sum
              + 1 ^ 2 * (r0.map (fun x => x ^ 2)).sum
            = ((r0.length : ℚ) * (r0.map (fun x => x ^ 2)).sum - r0.sum * r0.sum)
                / r0.length := by
          field_simp
          ring
        rw [hval, hD, zero_div]
      have hall := sum_sq_eq_zero r0 (r0.sum / r0.length) hvar0
      have hk : (r0.map (fun x => a + b * x)).headD 0
          = a + b * (r0.sum / r0.length) := by
        cases r0 with
        | nil => simp at hr0
        | cons x0 t =>
          simp only [List.map_cons, List.headD_cons]
          conv_lhs => rw [hall x0 (List.mem_cons_self x0 t)]
      rw [hk, List.map_map]
      conv_rhs => rw [← List.map_id r0]
      apply List.map_congr_left
      intro x hx
      simp only [Function.comp, id]
      rw [hall x hx]
      have h1k : (1 : ℚ) + (a + b * (r0.sum / r0.length)) ^ 2 ≠ 0 := by positivity
      field_simp
      ring
  · rw [if_neg (mul_ne_zero (pow_ne_zero 2 hb) hD)]
    rw [List.map_map]
    conv_rhs => rw [← List.map_id r0]
    apply List.map_congr_left
    intro x hx
    simp only [Function.comp, id]
    have h2 : b ^ 2 * ((r0.length : ℚ) * (r0.map (fun x => x ^ 2)).sum
        - r0.sum * r0.sum) ≠ 0 := mul_ne_zero (pow_ne_zero 2 hb) hD
    field_simp
    ring

/-- C7: `prenormalize_data` returns the master (first) row unchanged for
EVERY input matrix (first conjunct, universal), and any other row that is an
exact affine image `a + b * row_master` with `b ≠ 0` is mapped back onto the
master row exactly (exact rational arithmetic sharpens the claim's "within
numeric tolerance" to equality). -/
theorem C7_prenormalize_affine (data : List (List ℚ)) (a b : ℚ) (i : ℕ)
    (hi0 : 0 < i) (hil : i < data.length)
    (hrow : data.getD i [] = (data.headD []).map (fun x => a + b * x))
    (hb : b ≠ 0) :
    (∀ d : List (List ℚ), (prenormalize_data d).headD [] = d.headD [])
    ∧ (prenormalize_data data).getD i [] = data.headD [] := by
  constructor
  · intro d
    cases d with
    | nil => rfl
    | cons r0 rest => rfl
  · obtain ⟨r0, rest, rfl⟩ : ∃ r0 rest, data = r0 :: rest := by
      cases data with
      | nil => simp at hil
      | cons x l => exact ⟨x, l, rfl⟩
    obtain ⟨j, rfl⟩ : ∃ j, i = j + 1 := ⟨i - 1, by omega⟩
    have hjlt : j < rest.length := by simpa using hil
    show (rest.map _).getD j [] = r0
    rw [getD_map_lt _ rest j hjlt [] []]
    have hrj : rest.getD j [] = r0.map (fun x => a + b * x) := by simpa using hrow
    rw [hrj]
    exact lstsq2_affine r0 a b hb

/-- C7 witness: the second row `[2, 4]` is `2 + 2 * [0, 1]` and is restored to
the master row exactly; the master row is unchanged on every input. -/
theorem C7_prenormalize_affine_witness :
    (∀ d : List (List ℚ), (prenormalize_data d).headD [] = d.headD [])
    ∧ (prenormalize_data [[(0 : ℚ), 1], [2, 4]]).getD 1 []
        = [[(0 : ℚ), 1], [2, 4]].headD [] :=
  C7_prenormalize_affine [[(0 : ℚ), 1], [2, 4]] 2 2 1 (by norm_num) (by norm_num)
    (by norm_num) (by norm_num)

/-- C8: the claim describes the intended averaging — and the loop body of the
source is indeed written to average the original rows under labels computed
from the normalized matrix — but the program never reaches it: on every
invocation `outlier_rejection` raises `TypeError` at its
`standardize_energy_grid(scangroup, master_idx=..., energy_key=...)` call
(`src/xas/outliers.py:160-162`), because the imported
`standardize_energy_grid` (`src/xas/analysis.py:116`) accepts no `master_idx`
keyword; the `prenormalize_data(data, energy)` call at line 184 would fail the
same way. -/
theorem C8_outlier_rejection_raises (oracle : LofOracle) (sg : List Scan)
    (uids channels : List String) (ekey : String) :
    outlier_rejection oracle sg uids channels ekey = .error PyError.typeError := rfl

/-- C10: the claimed partition invariant concerns inlier/outlier uid lists the
program never produces — every invocation of `outlier_rejection` fails with
`TypeError` at the grid-alignment call before any uid list is built, so no
invocation returns a result at all. -/
theorem C10_no_partition_produced (oracle : LofOracle) (sg : List Scan)
    (uids channels : List String) (ekey : String)
    (res : List (String × ChannelOut)) :
    outlier_rejection oracle sg uids channels ekey ≠ .ok res := by
  intro h
  have h' : (Except.error PyError.typeError :
      Except PyError (List (String × ChannelOut))) = .ok res := h
  cases h'
